import Mathlib

/-!
Verification of the OxonTime departure-board engine.

This file gives a shallow embedding, in Lean 4, of the decision logic of
`oxontime_epaper_landscape.py` (with `oxontime_terminal_emulator.py` sharing
the same `in_quiet_hours` / `choose_catchable` / refresh logic): the ETA
normalizer, the catchability selector, the refresh scheduler, the quiet-hours
gate and the seven-segment glyph tables, together with theorems about them.

Python strings are modelled as `List Char` (the ASCII fragment: the feed's
display-time texts are ASCII).  Python `int` values are Lean `Int`; Python's
floor division `//` agrees with Lean's Euclidean `/` on `Int` because every
divisor appearing in the source is a positive literal.
-/

namespace Oxon

/-- Python's ASCII whitespace for `str.strip` / `str.split`:
space, tab, newline, vertical tab, form feed, carriage return. -/
def isWsChar (c : Char) : Bool :=
  c.toNat = 32 || (9 ≤ c.toNat && c.toNat ≤ 13)

/-- ASCII decimal digit test, as used by Python `int` parsing. -/
def isDigitChar (c : Char) : Bool :=
  48 ≤ c.toNat && c.toNat ≤ 57

/-- Numeric value of a digit character. -/
def dval (c : Char) : Nat :=
  c.toNat - 48

/-- The digit character for a value below ten. -/
def digitChar (d : Nat) : Char :=
  Char.ofNat (48 + d)

/-- ASCII lower-casing of one character, as in Python `str.lower`
(the display texts are ASCII). -/
def lowerChar (c : Char) : Char :=
  if 65 ≤ c.toNat ∧ c.toNat ≤ 90 then Char.ofNat (c.toNat + 32) else c

/-- Python `str.lower` on an ASCII string. -/
def toLowerL (l : List Char) : List Char :=
  l.map lowerChar

/-- Python `str.strip`: drop whitespace from both ends. -/
def pyStrip (l : List Char) : List Char :=
  ((l.dropWhile isWsChar).reverse.dropWhile isWsChar).reverse

/-- Does the first list start with the second one? (helper for substring test). -/
def startsWith : List Char → List Char → Bool
  | _, [] => true
  | [], _ :: _ => false
  | c :: cs, p :: ps => if c = p then startsWith cs ps else false

/-- Python's substring test `pat in hay`. -/
def containsSub : List Char → List Char → Bool
  | [], pat => startsWith [] pat
  | c :: cs, pat => startsWith (c :: cs) pat || containsSub cs pat

/-- Fueled worker for `splitWs`; the fuel only serves structural recursion and
is always at least the length of the list. -/
def splitWsF : Nat → List Char → List (List Char)
  | 0, _ => []
  | fuel + 1, l =>
    match l with
    | [] => []
    | c :: rest =>
      if isWsChar c then splitWsF fuel rest
      else (c :: rest.takeWhile (fun x => ! isWsChar x)) ::
        splitWsF fuel (rest.dropWhile (fun x => ! isWsChar x))

/-- Python `str.split()` with no argument: split on runs of whitespace,
producing no empty tokens. -/
def splitWs (l : List Char) : List (List Char) :=
  splitWsF l.length l

/-- Python `str.split(":")`: split on every colon, keeping empty parts. -/
def splitOnC : List Char → List (List Char)
  | [] => [[]]
  | c :: rest =>
    if c = ':' then [] :: splitOnC rest
    else
      match splitOnC rest with
      | [] => [[c]]
      | p :: ps => (c :: p) :: ps

/-- Digit-sequence worker for Python `int` parsing.  The flag records whether
the previous character was an underscore (Python allows single underscores
between digits, and rejects doubled, leading or trailing ones). -/
def pdAux : Nat → Bool → List Char → Option Nat
  | acc, afterU, [] => if afterU then none else some acc
  | acc, afterU, c :: rest =>
    if c = '_' then
      if afterU then none else pdAux acc true rest
    else if isDigitChar c then pdAux (acc * 10 + dval c) false rest
    else none

/-- Parse a nonempty digit sequence (with optional single inner underscores),
as the unsigned part of Python `int`. -/
def parseDigitsU : List Char → Option Nat
  | [] => none
  | c :: rest => if isDigitChar c then pdAux (dval c) false rest else none

/-- Python `int(s)` on an ASCII string: optional surrounding whitespace,
optional single sign, then a digit sequence; anything else raises (here:
`none`). -/
def pyInt (l : List Char) : Option Int :=
  match pyStrip l with
  | [] => none
  | c :: rest =>
    if c = '+' then (parseDigitsU rest).map Int.ofNat
    else if c = '-' then (parseDigitsU rest).map (fun n => -Int.ofNat n)
    else (parseDigitsU (c :: rest)).map Int.ofNat

/-- One step of decimal accumulation, as performed digit by digit by
`pdAux`. -/
def dstep (a : Nat) (c : Char) : Nat :=
  a * 10 + dval c

/-- Characters that can occur in a string Python `int` accepts: whitespace,
a sign, an underscore, or a digit. -/
def intOkChar (c : Char) : Bool :=
  isWsChar c || c.toNat = 43 || c.toNat = 45 || c.toNat = 95 || isDigitChar c

/-- Fueled worker for `natToChars`; fuel is always larger than the number. -/
def natToCharsAux : Nat → Nat → List Char
  | 0, _ => []
  | fuel + 1, n =>
    if n < 10 then [digitChar n]
    else natToCharsAux fuel (n / 10) ++ [digitChar (n % 10)]

/-- Decimal digits of a natural number, as Python `str` of a nonnegative int. -/
def natToChars (n : Nat) : List Char :=
  natToCharsAux (n + 1) n

/-- Python `str` of an int (a minus sign for negative values). -/
def pyStrInt (i : Int) : List Char :=
  if i < 0 then '-' :: natToChars i.natAbs else natToChars i.natAbs

/-- Two-digit zero-padded decimal rendering, the usual `HH` / `MM` format. -/
def pad2 (n : Nat) : List Char :=
  if n < 10 then '0' :: natToChars n else natToChars n

/-- The characters of the token `"min"`. -/
def minChars : List Char := ['m', 'i', 'n']

/-- The characters of the placeholder label `"--"`. -/
def dashChars : List Char := ['-', '-']

/-- The characters of the overflow label `"99+"`. -/
def ninetyNinePlus : List Char := ['9', '9', '+']

/-- A wall-clock instant, as the fields of a Python `datetime` that the
source reads: hour, minute, second and microsecond of the day (the date
itself never influences the modelled functions). -/
structure Time where
  hour : Nat
  minute : Nat
  second : Nat
  usec : Nat

/-- A `datetime` with fields in their documented ranges. -/
def Time.Valid (t : Time) : Prop :=
  t.hour < 24 ∧ t.minute < 60 ∧ t.second < 60 ∧ t.usec < 1000000

/-- Microseconds elapsed since midnight; two datetimes of the same date
compare exactly as these values do. -/
def Time.usecOfDay (t : Time) : Nat :=
  ((t.hour * 3600 + t.minute * 60 + t.second) * 1000000) + t.usec

/-- One departure call of the feed.  Absent fields are the empty string, as
the source's `call.get(...) or ""` produces. -/
structure Call where
  route_code : List Char
  destination_name : List Char
  display_time : List Char
deriving DecidableEq

/-- The all-empty placeholder call used to pad short feeds. -/
def emptyCall : Call := ⟨[], [], []⟩

instance : Inhabited Call := ⟨emptyCall⟩

/-- A call carrying only a display time (the only field the modelled
functions read). -/
def mkCall (s : List Char) : Call := ⟨[], [], s⟩

/-- Python `calls[i]` for an index produced by the selector (defaulting is
never exercised in range, mirroring that a valid index never raises). -/
def callAt (l : List Call) (i : Nat) : Call :=
  l.getD i emptyCall

/-- The quiet-hours gate of both scripts (`in_quiet_hours`), with the
`QUIET_START` / `QUIET_END` configuration passed explicitly. -/
def in_quiet_hours (QUIET_START QUIET_END : Int) (now : Time) : Bool :=
  if QUIET_START < QUIET_END then
    decide (QUIET_START ≤ (now.hour : Int) ∧ (now.hour : Int) < QUIET_END)
  else
    decide ((now.hour : Int) ≥ QUIET_START ∨ (now.hour : Int) < QUIET_END)

/-- The `"N min"` branch of the normalizer (`parse_minutes` in the source):
strip and lower the text, and when it contains `"min"`, parse its first
whitespace-separated token as an int; every failure (empty text, missing
token, unparseable token) yields `none`. -/
def parse_minutes (display_time : List Char) : Option Int :=
  let t := toLowerL (pyStrip display_time)
  if t = [] then none
  else if containsSub t minChars then
    match splitWs t with
    | [] => none
    | tok :: _ => pyInt tok
  else none

/-- The arithmetic core of `minutes_until_clock` once both clock fields have
parsed: `datetime.replace` raises (`none`) outside the documented hour and
minute ranges; otherwise build today's occurrence of the target wall-clock
time, add a day when it already passed (`target < now`), and floor the
difference to whole minutes with `max(0, ...)` applied as in the source.
The float `total_seconds() // 60` of the source is exact integer arithmetic
at microsecond granularity, which the `Nat` computation reproduces. -/
def clock_minutes (h m : Int) (now : Time) : Option Int :=
  if 0 ≤ h ∧ h ≤ 23 ∧ 0 ≤ m ∧ m ≤ 59 then
    let targetU : Nat := (h.toNat * 3600 + m.toNat * 60) * 1000000
    let nowU : Nat := now.usecOfDay
    let diffU : Nat :=
      if targetU < nowU then targetU + 86400000000 - nowU else targetU - nowU
    some (max 0 ((diffU / 60000000 : Nat) : Int))
  else none

/-- The `HH:MM` branch of the normalizer (`minutes_until_clock`): split on
`":"` into exactly two int-parseable parts (`hh, mm = hhmm.split(":")` raises
on any other shape) and hand them to the clock arithmetic; every failure
yields `none`. -/
def minutes_until_clock (hhmm : List Char) (now : Time) : Option Int :=
  match splitOnC hhmm with
  | [hh, mm] =>
    match pyInt hh, pyInt mm with
    | some h, some m => clock_minutes h m now
    | _, _ => none
  | _ => none

/-- The ETA normalizer `minutes_only`: always a label plus an optional
numeric ETA, with labels above `99` rendered as `"99+"`. -/
def minutes_only (call : Call) (now : Time) : List Char × Option Int :=
  let disp := pyStrip call.display_time
  if disp = [] then (dashChars, none)
  else
    match parse_minutes disp with
    | some eta => ((if 99 < eta then ninetyNinePlus else pyStrInt eta), some eta)
    | none =>
      if ':' ∈ disp then
        match minutes_until_clock disp now with
        | some eta2 => ((if 99 < eta2 then ninetyNinePlus else pyStrInt eta2), some eta2)
        | none => (dashChars, none)
      else (dashChars, none)

/-- The replacement test of the selector's scan:
`eta >= WALK_MIN and (best_eta is None or eta < best_eta)`. -/
def betterEta (walk eta : Int) (be : Option Int) : Bool :=
  decide (walk ≤ eta) &&
    (match be with
     | none => true
     | some b => decide (eta < b))

/-- The selector's left-to-right scan over `enumerate(calls)`, carrying the
current index and the best index/ETA seen so far. -/
def ccAux (walk : Int) (now : Time) : Nat → Option Nat → Option Int → List Call → Option Nat
  | _, bi, _, [] => bi
  | i, bi, be, c :: rest =>
    match (minutes_only c now).2 with
    | none => ccAux walk now (i + 1) bi be rest
    | some eta =>
      if betterEta walk eta be then ccAux walk now (i + 1) (some i) (some eta) rest
      else ccAux walk now (i + 1) bi be rest

/-- The catchability selector `choose_catchable`, with `WALK_MIN` and the
`datetime.now()` read inside the source function passed explicitly; falls
back to index `0` when the scan found nothing. -/
def choose_catchable (walk : Int) (now : Time) (calls : List Call) : Nat :=
  (ccAux walk now 0 none none calls).getD 0

/-- Does the optional ETA qualify as catchable (defined and at least the walk
time)?  This is the qualifying condition of the selector's scan. -/
def qualB (walk : Int) (e : Option Int) : Bool :=
  match e with
  | none => false
  | some v => decide (walk ≤ v)

/-- The refresh scheduler `choose_sleep_seconds` of the ePaper script, with
configuration and `datetime.now()` passed explicitly. -/
def choose_sleep_seconds (DAY_REFRESH FAST_REFRESH FAST_WINDOW_MIN : Int)
    (now : Time) (calls : List Call) (catch_idx : Nat) : Int :=
  if calls = [] then DAY_REFRESH
  else
    match (minutes_only (callAt calls (min catch_idx (calls.length - 1))) now).2 with
    | some eta => if eta ≤ FAST_WINDOW_MIN then FAST_REFRESH else DAY_REFRESH
    | none => DAY_REFRESH

/-- The seven-segment alphabet of the source, with each entry's segment
string kept in the source's character order. -/
def SEGMENTS : Char → List Char
  | '0' => ['a', 'b', 'c', 'e', 'd', 'f']
  | '1' => ['b', 'c']
  | '2' => ['a', 'b', 'g', 'e', 'd']
  | '3' => ['a', 'b', 'g', 'c', 'd']
  | '4' => ['f', 'g', 'b', 'c']
  | '5' => ['a', 'f', 'g', 'c', 'd']
  | '6' => ['a', 'f', 'g', 'c', 'd', 'e']
  | '7' => ['a', 'b', 'c']
  | '8' => ['a', 'b', 'c', 'd', 'e', 'f', 'g']
  | '9' => ['a', 'b', 'f', 'g', 'c', 'd']
  | '-' => ['g']
  | _ => []

/-- An axis-aligned rectangle `(x0, y0, x1, y1)` as passed to
`draw.rectangle`. -/
def RectT := Int × Int × Int × Int

/-- The thickness clamp at the top of `_seg_rects`:
`t = max(2, min(t, min(w, h) // 4))`. -/
def seg_thickness (w h t : Int) : Int :=
  max 2 (min t (min w h / 4))

/-- The segment-geometry computation `_seg_rects`, as a map from segment name
to rectangle (the source builds the same seven entries as a dict). -/
def _seg_rects (x y w h t0 : Int) (s : Char) : RectT :=
  let t := seg_thickness w h t0
  let gap := max 1 (t / 2)
  let top_h := max 1 ((h - 3 * t) / 2)
  let bot_h := top_h
  if s = 'a' then (x + t, y, x + w - t, y + t)
  else if s = 'b' then (x + w - t, y + t, x + w, y + t + top_h)
  else if s = 'c' then (x + w - t, y + h / 2 + gap, x + w, y + h / 2 + gap + bot_h)
  else if s = 'd' then (x + t, y + h - t, x + w - t, y + h)
  else if s = 'e' then (x, y + h / 2 + gap, x + t, y + h / 2 + gap + bot_h)
  else if s = 'f' then (x, y + t, x + t, y + t + top_h)
  else if s = 'g' then (x + t, y + (h - t) / 2, x + w - t, y + (h + t) / 2)
  else (0, 0, 0, 0)

/-- The digit rasterizer `draw_7seg_digit`: the list of rectangles it fills,
one per segment of the character's entry in `SEGMENTS` (characters outside
the table draw nothing, as `SEGMENTS.get(ch, "")`). -/
def draw_7seg_digit (x y w h : Int) (ch : Char) (t : Int) : List RectT :=
  (SEGMENTS ch).map (_seg_rects x y w h t)

/-- The characters the text rasterizer accepts: `"0123456789-+"`. -/
def allowed7 : List Char :=
  ['0', '1', '2', '3', '4', '5', '6', '7', '8', '9', '-', '+']

/-- The text-preparation step of `draw_7seg_text` (source lines 260-268): the
string actually laid out, after stripping, the empty-input fallback,
filtering to the allowed alphabet, truncation to three characters, and the
empty-after-filtering fallback.  The later geometry of the function only
consumes this string. -/
def draw_7seg_text_sanitized (text : List Char) : List Char :=
  let t1 := pyStrip text
  let t2 := if t1 = [] then dashChars else t1
  let t3 := (t2.filter (fun c => c ∈ allowed7)).take 3
  if t3 = [] then dashChars else t3

/-- A sample instant used by concrete evaluations. -/
def sampleNow : Time := ⟨12, 0, 0, 0⟩

/-- Sample calls with the display times of the spec's scenarios. -/
def call5 : Call := mkCall ['5', ' ', 'm', 'i', 'n']

def call21 : Call := mkCall ['2', '1', ' ', 'm', 'i', 'n']

def call2 : Call := mkCall ['2', ' ', 'm', 'i', 'n']

def callNeg3 : Call := mkCall ['-', '3', ' ', 'm', 'i', 'n']

/-- The canonical calculator-display seven-segment alphabet, written from the
spec's words for comparison with the source's `SEGMENTS` table: `a` top,
`b` top-right, `c` bottom-right, `d` bottom, `e` bottom-left, `f` top-left,
`g` middle; digit `1` is top-right and bottom-right, digit `8` all seven,
the minus sign the middle segment alone. -/
def canonicalSegs : Char → List Char
  | '0' => ['a', 'b', 'c', 'd', 'e', 'f']
  | '1' => ['b', 'c']
  | '2' => ['a', 'b', 'd', 'e', 'g']
  | '3' => ['a', 'b', 'c', 'd', 'g']
  | '4' => ['b', 'c', 'f', 'g']
  | '5' => ['a', 'c', 'd', 'f', 'g']
  | '6' => ['a', 'c', 'd', 'e', 'f', 'g']
  | '7' => ['a', 'b', 'c']
  | '8' => ['a', 'b', 'c', 'd', 'e', 'f', 'g']
  | '9' => ['a', 'b', 'c', 'd', 'f', 'g']
  | '-' => ['g']
  | _ => []

/-- The laid-out text as the spec words it, for comparison with
`draw_7seg_text_sanitized`: placeholder for whitespace-only input, otherwise
filter to the allowed alphabet, truncate to three characters, placeholder if
nothing is left. -/
def sanitizeSpec (text : List Char) : List Char :=
  if pyStrip text = [] then dashChars
  else
    let kept := (pyStrip text).filter (fun c => c ∈ allowed7)
    if kept = [] then dashChars else kept.take 3

/-- Minutes until the next occurrence of the wall-clock time `h:m`, as the
spec words it: the difference from `now` to the target, wrapped into one day,
floored to whole minutes. -/
def nextOccurrenceMinutes (h m : Nat) (now : Time) : Nat :=
  (((h * 3600 + m * 60) * 1000000 + 86400000000 - now.usecOfDay) % 86400000000) / 60000000

/-! ## Character-level facts -/

theorem digitChar_facts : ∀ d, d < 10 →
    isDigitChar (digitChar d) = true ∧ dval (digitChar d) = d ∧
    isWsChar (digitChar d) = false ∧ digitChar d ≠ '_' ∧
    (digitChar d).toNat < 65 ∧ digitChar d ≠ ':' := by
  decide

theorem isDigitChar_toNat {c : Char} (h : isDigitChar c = true) :
    48 ≤ c.toNat ∧ c.toNat ≤ 57 := by
  simp only [isDigitChar, Bool.and_eq_true, decide_eq_true_eq] at h
  omega

theorem isWsChar_of_isDigitChar {c : Char} (h : isDigitChar c = true) :
    isWsChar c = false := by
  have := isDigitChar_toNat h
  simp only [isWsChar, Bool.or_eq_false_iff, decide_eq_false_iff_not,
    Bool.and_eq_false_iff, decide_eq_true_eq, Bool.and_eq_true]
  omega

theorem lowerChar_eq_self {c : Char} (h : c.toNat < 65 ∨ 90 < c.toNat) :
    lowerChar c = c := by
  unfold lowerChar
  rw [if_neg]
  omega

theorem ne_of_toNat_ne {c d : Char} (h : c.toNat ≠ d.toNat) : c ≠ d := by
  intro hc
  exact h (congrArg Char.toNat hc)

theorem toLowerL_eq_self {l : List Char}
    (h : ∀ c ∈ l, c.toNat < 65 ∨ 90 < c.toNat) : toLowerL l = l := by
  unfold toLowerL
  rw [List.map_congr_left fun c hc => lowerChar_eq_self (h c hc)]
  simp

/-! ## Strip / takeWhile / dropWhile facts -/

theorem dropWhile_all_false {p : Char → Bool} {l : List Char}
    (h : ∀ c ∈ l, p c = false) : l.dropWhile p = l := by
  induction l with
  | nil => rfl
  | cons a t _ =>
    rw [List.dropWhile_cons_of_neg]
    simp [h a (List.mem_cons_self a t)]

theorem pyStrip_of_no_ws {l : List Char}
    (h : ∀ c ∈ l, isWsChar c = false) : pyStrip l = l := by
  unfold pyStrip
  rw [dropWhile_all_false h, dropWhile_all_false (fun c hc => h c (List.mem_reverse.mp hc)),
    List.reverse_reverse]

theorem dropWhile_head_false {p : Char → Bool} {c : Char} {cs : List Char} :
    ∀ l : List Char, l.dropWhile p = c :: cs → p c = false := by
  intro l
  induction l with
  | nil => intro h; cases h
  | cons a t ih =>
    intro h
    rw [List.dropWhile_cons] at h
    by_cases ha : p a = true
    · rw [if_pos ha] at h
      exact ih h
    · rw [if_neg ha] at h
      injection h with h1 _
      rw [← h1]
      simpa using ha

theorem dropWhile_decomp (p : Char → Bool) (l : List Char) :
    ∃ t, t ++ l.dropWhile p = l := by
  induction l with
  | nil => exact ⟨[], rfl⟩
  | cons a s ih =>
    by_cases ha : p a = true
    · obtain ⟨t, ht⟩ := ih
      exact ⟨a :: t, by simp [List.dropWhile_cons_of_pos ha, ht]⟩
    · exact ⟨[], by simp [List.dropWhile_cons_of_neg ha]⟩

theorem mem_dropWhile_or (p : Char → Bool) {l : List Char} {c : Char}
    (h : c ∈ l) : p c = true ∨ c ∈ l.dropWhile p := by
  induction l with
  | nil => cases h
  | cons a t ih =>
    by_cases ha : p a = true
    · rcases List.mem_cons.mp h with rfl | hm
      · exact Or.inl ha
      · rcases ih hm with h1 | h2
        · exact Or.inl h1
        · exact Or.inr (by rwa [List.dropWhile_cons_of_pos ha])
    · exact Or.inr (by rwa [List.dropWhile_cons_of_neg ha])

theorem mem_pyStrip_or {l : List Char} {c : Char} (h : c ∈ l) :
    isWsChar c = true ∨ c ∈ pyStrip l := by
  rcases mem_dropWhile_or isWsChar h with h1 | h2
  · exact Or.inl h1
  · rcases mem_dropWhile_or isWsChar (List.mem_reverse.mpr h2) with h3 | h4
    · exact Or.inl h3
    · exact Or.inr (List.mem_reverse.mpr h4)

theorem dropWhile_idem (p : Char → Bool) (l : List Char) :
    (l.dropWhile p).dropWhile p = l.dropWhile p := by
  induction l with
  | nil => rfl
  | cons a t ih =>
    by_cases ha : p a = true
    · rw [List.dropWhile_cons_of_pos ha, ih]
    · rw [List.dropWhile_cons_of_neg ha, List.dropWhile_cons_of_neg ha]

theorem pyStrip_idem (l : List Char) : pyStrip (pyStrip l) = pyStrip l := by
  rcases hA : l.dropWhile isWsChar with _ | ⟨a, as⟩
  · simp [pyStrip, hA]
  · have haw : isWsChar a = false := dropWhile_head_false _ hA
    rcases hB : (a :: as).reverse.dropWhile isWsChar with _ | ⟨b, bs⟩
    · have h1 : pyStrip l = [] := by
        unfold pyStrip
        rw [hA, hB]
        rfl
      rw [h1]
      rfl
    · have hbw : isWsChar b = false := dropWhile_head_false _ hB
      have hstrip : pyStrip l = (b :: bs).reverse := by
        unfold pyStrip
        rw [hA, hB]
      obtain ⟨t, ht⟩ := dropWhile_decomp isWsChar (a :: as).reverse
      rw [hB] at ht
      have h3 := congrArg List.reverse ht
      rw [List.reverse_append, List.reverse_reverse] at h3
      rcases hr : (b :: bs).reverse with _ | ⟨c, cs⟩
      · exact absurd (congrArg List.length hr) (by simp)
      · rw [hr] at h3
        rw [List.cons_append] at h3
        have hca : c = a := by
          injection h3 with h4 _
        have hcw : isWsChar c = false := by rw [hca]; exact haw
        rw [hstrip, hr]
        unfold pyStrip
        rw [List.dropWhile_cons, if_neg (by simp [hcw])]
        have hrev : (c :: cs).reverse = b :: bs := by rw [← hr, List.reverse_reverse]
        rw [hrev, List.dropWhile_cons, if_neg (by simp [hbw]), ← hrev, List.reverse_reverse]

theorem pyStrip_clean {c d : Char} (mid : List Char)
    (hc : isWsChar c = false) (hd : isWsChar d = false) :
    pyStrip (c :: (mid ++ [d])) = c :: (mid ++ [d]) := by
  unfold pyStrip
  rw [List.dropWhile_cons, if_neg (by simp [hc])]
  have hrev : (c :: (mid ++ [d])).reverse = d :: (mid.reverse ++ [c]) := by simp
  rw [hrev, List.dropWhile_cons, if_neg (by simp [hd]), ← hrev, List.reverse_reverse]

theorem takeWhile_all_append {p : Char → Bool} {xs : List Char} (y : Char) (ys : List Char)
    (hx : ∀ x ∈ xs, p x = true) (hy : p y = false) :
    (xs ++ y :: ys).takeWhile p = xs := by
  induction xs with
  | nil => simp [List.takeWhile_cons, hy]
  | cons a t ih =>
    have ha : p a = true := hx a (List.mem_cons_self a t)
    simp only [List.cons_append, List.takeWhile_cons, ha, if_pos]
    rw [ih fun x hx' => hx x (List.mem_cons_of_mem a hx')]

/-! ## Substring facts -/

theorem startsWith_append (pat rest : List Char) :
    startsWith (pat ++ rest) pat = true := by
  induction pat with
  | nil => simp [startsWith]
  | cons p ps ih => simp [startsWith, ih]

theorem containsSub_cons (c : Char) (cs pat : List Char)
    (h : containsSub cs pat = true) : containsSub (c :: cs) pat = true := by
  simp [containsSub, h]

theorem containsSub_of_tail_eq (pat : List Char) :
    ∀ xs, containsSub (xs ++ pat) pat = true := by
  intro xs
  induction xs with
  | nil =>
    rcases pat with _ | ⟨p, ps⟩
    · rfl
    · have h1 : startsWith (p :: ps) (p :: ps) = true := by
        have := startsWith_append (p :: ps) []
        simpa using this
      simp [containsSub, h1]
  | cons a t ih => exact containsSub_cons a _ _ ih

theorem containsSub_mem {hay pat : List Char} {p : Char} {ps : List Char}
    (hp : pat = p :: ps) (h : containsSub hay pat = true) : p ∈ hay := by
  induction hay with
  | nil =>
    subst hp
    simp [containsSub, startsWith] at h
  | cons c cs ih =>
    simp only [containsSub, Bool.or_eq_true] at h
    rcases h with h1 | h2
    · subst hp
      simp only [startsWith] at h1
      by_cases hc : c = p
      · exact hc ▸ List.mem_cons_self c cs
      · rw [if_neg hc] at h1
        cases h1
    · exact List.mem_cons_of_mem c (ih h2)

theorem containsSub_ne_nil {hay pat : List Char} {p : Char} {ps : List Char}
    (hp : pat = p :: ps) (h : containsSub hay pat = true) : hay ≠ [] := by
  intro hnil
  subst hnil
  exact absurd (containsSub_mem hp h) (List.not_mem_nil p)

theorem containsSub_false_of_no_mem {hay : List Char} {p : Char} {ps : List Char}
    (h : p ∉ hay) : containsSub hay (p :: ps) = false := by
  by_cases hc : containsSub hay (p :: ps) = true
  · exact absurd (containsSub_mem rfl hc) h
  · simpa using hc

/-! ## splitWs facts -/

theorem splitWs_cons {c : Char} (rest : List Char) (hc : isWsChar c = false) :
    splitWs (c :: rest) =
      (c :: rest.takeWhile (fun x => ! isWsChar x)) ::
        splitWsF rest.length (rest.dropWhile (fun x => ! isWsChar x)) := by
  unfold splitWs
  rw [List.length_cons]
  show (if isWsChar c = true then splitWsF rest.length rest
    else (c :: rest.takeWhile (fun x => ! isWsChar x)) ::
      splitWsF rest.length (rest.dropWhile (fun x => ! isWsChar x))) = _
  rw [if_neg (by simp [hc])]

/-! ## splitOnC facts -/

theorem splitOnC_no_colon {l : List Char} (h : ∀ c ∈ l, c ≠ ':') :
    splitOnC l = [l] := by
  induction l with
  | nil => rfl
  | cons a t ih =>
    unfold splitOnC
    rw [if_neg (h a (List.mem_cons_self a t))]
    rw [ih fun c hc => h c (List.mem_cons_of_mem a hc)]

theorem splitOnC_append {xs : List Char} (ys : List Char) (h : ∀ c ∈ xs, c ≠ ':') :
    splitOnC (xs ++ ':' :: ys) = xs :: splitOnC ys := by
  induction xs with
  | nil => simp [splitOnC]
  | cons a t ih =>
    have ha : a ≠ ':' := h a (List.mem_cons_self a t)
    rw [List.cons_append]
    rw [splitOnC]
    rw [if_neg ha, ih fun c hc => h c (List.mem_cons_of_mem a hc)]

theorem mem_splitOnC {l : List Char} {c : Char} (h : c ∈ l) :
    c = ':' ∨ ∃ p ∈ splitOnC l, c ∈ p := by
  induction l with
  | nil => cases h
  | cons a t ih =>
    by_cases ha : a = ':'
    · rcases List.mem_cons.mp h with rfl | hm
      · exact Or.inl ha
      · rcases ih hm with h1 | ⟨p, hp, hcp⟩
        · exact Or.inl h1
        · refine Or.inr ⟨p, ?_, hcp⟩
          unfold splitOnC
          rw [if_pos ha]
          exact List.mem_cons_of_mem _ hp
    · rcases List.mem_cons.mp h with rfl | hm
      · refine Or.inr ?_
        unfold splitOnC
        rw [if_neg ha]
        rcases hs : splitOnC t with _ | ⟨p, ps⟩
        · exact ⟨[c], List.mem_cons_self _ _, List.mem_cons_self c []⟩
        · exact ⟨c :: p, List.mem_cons_self _ _, List.mem_cons_self c p⟩
      · rcases ih hm with h1 | ⟨p, hp, hcp⟩
        · exact Or.inl h1
        · unfold splitOnC
          rw [if_neg ha]
          rcases hs : splitOnC t with _ | ⟨q, qs⟩
          · rw [hs] at hp
            cases hp
          · rw [hs] at hp
            rcases List.mem_cons.mp hp with rfl | hps
            · exact Or.inr ⟨a :: p, List.mem_cons_self _ _, List.mem_cons_of_mem a hcp⟩
            · exact Or.inr ⟨p, List.mem_cons_of_mem _ hps, hcp⟩

/-! ## Decimal parsing and printing facts -/

theorem ne_underscore_of_digit {c : Char} (h : isDigitChar c = true) : c ≠ '_' := by
  have hb := isDigitChar_toNat h
  have h95 : ('_').toNat = 95 := rfl
  exact ne_of_toNat_ne (by omega)

theorem pdAux_digits_append {xs : List Char} (ys : List Char) (acc : Nat)
    (hx : ∀ c ∈ xs, isDigitChar c = true) :
    pdAux acc false (xs ++ ys) = pdAux (xs.foldl dstep acc) false ys := by
  induction xs generalizing acc with
  | nil => rfl
  | cons a t ih =>
    have ha : isDigitChar a = true := hx a (List.mem_cons_self a t)
    rw [List.cons_append, pdAux, if_neg (ne_underscore_of_digit ha), if_pos ha]
    rw [ih _ fun c hc => hx c (List.mem_cons_of_mem a hc)]
    rfl

theorem pdAux_all_digits {l : List Char} (acc : Nat)
    (h : ∀ c ∈ l, isDigitChar c = true) :
    pdAux acc false l = some (l.foldl dstep acc) := by
  have := pdAux_digits_append [] acc h
  rwa [List.append_nil] at this

theorem natToCharsAux_digits :
    ∀ fuel n, n < fuel → ∀ c ∈ natToCharsAux fuel n, isDigitChar c = true := by
  intro fuel
  induction fuel with
  | zero => omega
  | succ fuel ih =>
    intro n hn c hc
    rw [natToCharsAux] at hc
    by_cases h10 : n < 10
    · rw [if_pos h10] at hc
      rcases List.mem_singleton.mp hc with rfl
      exact (digitChar_facts n h10).1
    · rw [if_neg h10] at hc
      rcases List.mem_append.mp hc with h1 | h2
      · exact ih (n / 10) (by omega) c h1
      · rcases List.mem_singleton.mp h2 with rfl
        exact (digitChar_facts (n % 10) (by omega)).1

theorem natToCharsAux_ne_nil :
    ∀ fuel n, n < fuel → natToCharsAux fuel n ≠ [] := by
  intro fuel n hn
  cases fuel with
  | zero => omega
  | succ fuel =>
    rw [natToCharsAux]
    by_cases h10 : n < 10
    · rw [if_pos h10]
      simp
    · rw [if_neg h10]
      simp

theorem natToCharsAux_foldl :
    ∀ fuel n, n < fuel → ∀ acc,
      (natToCharsAux fuel n).foldl dstep acc =
        acc * 10 ^ (natToCharsAux fuel n).length + n := by
  intro fuel
  induction fuel with
  | zero => omega
  | succ fuel ih =>
    intro n hn acc
    rw [natToCharsAux]
    by_cases h10 : n < 10
    · rw [if_pos h10]
      have hd : dval (digitChar n) = n := (digitChar_facts n h10).2.1
      simp [List.foldl, dstep, hd]
    · rw [if_neg h10]
      have hq : n / 10 < fuel := by
        have := Nat.div_lt_self (by omega : 0 < n) (by omega : 1 < 10)
        omega
      have hd : dval (digitChar (n % 10)) = n % 10 := (digitChar_facts (n % 10) (by omega)).2.1
      rw [List.foldl_append, ih (n / 10) hq acc]
      simp only [List.foldl, dstep, hd, List.length_append, List.length_singleton]
      have hpow : 10 ^ ((natToCharsAux fuel (n / 10)).length + 1) =
          10 ^ (natToCharsAux fuel (n / 10)).length * 10 := pow_succ 10 _
      rw [hpow]
      have hdm : n / 10 * 10 + n % 10 = n := by omega
      ring_nf
      omega

theorem natToChars_digits (n : Nat) : ∀ c ∈ natToChars n, isDigitChar c = true :=
  natToCharsAux_digits (n + 1) n (Nat.lt_succ_self n)

theorem natToChars_ne_nil (n : Nat) : natToChars n ≠ [] :=
  natToCharsAux_ne_nil (n + 1) n (Nat.lt_succ_self n)

theorem natToChars_foldl (n : Nat) (acc : Nat) :
    (natToChars n).foldl dstep acc = acc * 10 ^ (natToChars n).length + n :=
  natToCharsAux_foldl (n + 1) n (Nat.lt_succ_self n) acc

theorem natToChars_no_ws (n : Nat) : ∀ c ∈ natToChars n, isWsChar c = false :=
  fun c hc => isWsChar_of_isDigitChar (natToChars_digits n c hc)

theorem parseDigitsU_all_digits {l : List Char} (hne : l ≠ [])
    (h : ∀ c ∈ l, isDigitChar c = true) :
    parseDigitsU l = some (l.foldl dstep 0) := by
  rcases l with _ | ⟨c, cs⟩
  · exact absurd rfl hne
  · have hc : isDigitChar c = true := h c (List.mem_cons_self c cs)
    rw [parseDigitsU, if_pos hc,
      pdAux_all_digits (dval c) fun x hx => h x (List.mem_cons_of_mem c hx)]
    simp [List.foldl, dstep]

theorem parseDigitsU_natToChars (n : Nat) : parseDigitsU (natToChars n) = some n := by
  rw [parseDigitsU_all_digits (natToChars_ne_nil n) (natToChars_digits n)]
  rw [natToChars_foldl n 0]
  simp

theorem parseDigitsU_zero_cons (n : Nat) :
    parseDigitsU ('0' :: natToChars n) = some n := by
  rw [parseDigitsU_all_digits (by simp)
    (by
      intro c hc
      rcases List.mem_cons.mp hc with rfl | h2
      · decide
      · exact natToChars_digits n c h2)]
  simp only [List.foldl]
  have h0 : dstep 0 '0' = 0 := by decide
  rw [h0, natToChars_foldl n 0]
  simp

theorem pyInt_of_strip_cons {l : List Char} {c : Char} {rest : List Char}
    (hs : pyStrip l = c :: rest) :
    pyInt l =
      (if c = '+' then (parseDigitsU rest).map Int.ofNat
       else if c = '-' then (parseDigitsU rest).map (fun n => -Int.ofNat n)
       else (parseDigitsU (c :: rest)).map Int.ofNat) := by
  rw [pyInt, hs]

theorem pyInt_natToChars (n : Nat) : pyInt (natToChars n) = some (n : Int) := by
  obtain ⟨c, cs, h⟩ := List.exists_cons_of_ne_nil (natToChars_ne_nil n)
  have hs : pyStrip (natToChars n) = c :: cs := by
    rw [pyStrip_of_no_ws (natToChars_no_ws n), h]
  have hc : isDigitChar c = true := natToChars_digits n c (by rw [h]; exact List.mem_cons_self c cs)
  have hb := isDigitChar_toNat hc
  have h43 : ('+').toNat = 43 := rfl
  have h45 : ('-').toNat = 45 := rfl
  rw [pyInt_of_strip_cons hs,
    if_neg (ne_of_toNat_ne (by omega : c.toNat ≠ ('+').toNat)),
    if_neg (ne_of_toNat_ne (by omega : c.toNat ≠ ('-').toNat)),
    ← h, parseDigitsU_natToChars n]
  rfl

theorem pyInt_pad2 (n : Nat) : pyInt (pad2 n) = some (n : Int) := by
  rw [pad2]
  by_cases h10 : n < 10
  · rw [if_pos h10]
    have hs : pyStrip ('0' :: natToChars n) = '0' :: natToChars n := by
      apply pyStrip_of_no_ws
      intro c hc
      rcases List.mem_cons.mp hc with rfl | h2
      · decide
      · exact natToChars_no_ws n c h2
    rw [pyInt_of_strip_cons hs, if_neg (by decide), if_neg (by decide),
      parseDigitsU_zero_cons n]
    rfl
  · rw [if_neg h10]
    exact pyInt_natToChars n

theorem pyInt_neg_natToChars (n : Nat) :
    pyInt ('-' :: natToChars n) = some (-(n : Int)) := by
  have hs : pyStrip ('-' :: natToChars n) = '-' :: natToChars n := by
    apply pyStrip_of_no_ws
    intro c hc
    rcases List.mem_cons.mp hc with rfl | h2
    · decide
    · exact natToChars_no_ws n c h2
  rw [pyInt_of_strip_cons hs, if_neg (by decide), if_pos rfl, parseDigitsU_natToChars n]
  rfl

theorem pdAux_chars :
    ∀ (l : List Char) (acc : Nat) (b : Bool) (v : Nat), pdAux acc b l = some v →
      ∀ c ∈ l, isDigitChar c = true ∨ c = '_' := by
  intro l
  induction l with
  | nil => intro acc b v _ c hc; cases hc
  | cons a t ih =>
    intro acc b v hp c hc
    rw [pdAux] at hp
    by_cases hu : a = '_'
    · rw [if_pos hu] at hp
      cases b with
      | true => cases hp
      | false =>
        rcases List.mem_cons.mp hc with rfl | h2
        · exact Or.inr hu
        · exact ih acc true v hp c h2
    · rw [if_neg hu] at hp
      by_cases hd : isDigitChar a = true
      · rw [if_pos hd] at hp
        rcases List.mem_cons.mp hc with rfl | h2
        · exact Or.inl hd
        · exact ih _ false v hp c h2
      · rw [if_neg hd] at hp
        cases hp

theorem parseDigitsU_chars {l : List Char} {v : Nat} (h : parseDigitsU l = some v) :
    ∀ c ∈ l, isDigitChar c = true ∨ c = '_' := by
  rcases l with _ | ⟨a, t⟩
  · intro c hc; cases hc
  · rw [parseDigitsU] at h
    by_cases hd : isDigitChar a = true
    · rw [if_pos hd] at h
      intro c hc
      rcases List.mem_cons.mp hc with rfl | h2
      · exact Or.inl hd
      · exact pdAux_chars t _ false v h c h2
    · rw [if_neg hd] at h
      cases h

theorem pyInt_chars {l : List Char} {v : Int} (h : pyInt l = some v) :
    ∀ c ∈ l, intOkChar c = true := by
  intro c hc
  rcases mem_pyStrip_or hc with hws | hmem
  · simp [intOkChar, hws]
  · rcases hs : pyStrip l with _ | ⟨c0, rest⟩
    · rw [hs] at hmem
      cases hmem
    · rw [pyInt_of_strip_cons hs] at h
      rw [hs] at hmem
      have okOfTail : (∀ x ∈ rest, isDigitChar x = true ∨ x = '_') →
          c ∈ rest → intOkChar c = true := by
        intro hall hin
        rcases hall c hin with h1 | h2
        · simp [intOkChar, h1]
        · subst h2
          decide
      by_cases hplus : c0 = '+'
      · rw [if_pos hplus] at h
        rcases ho : parseDigitsU rest with _ | u
        · rw [ho] at h
          cases h
        · rcases List.mem_cons.mp hmem with rfl | hin
          · subst hplus
            decide
          · exact okOfTail (parseDigitsU_chars ho) hin
      · rw [if_neg hplus] at h
        by_cases hminus : c0 = '-'
        · rw [if_pos hminus] at h
          rcases ho : parseDigitsU rest with _ | u
          · rw [ho] at h
            cases h
          · rcases List.mem_cons.mp hmem with rfl | hin
            · subst hminus
              decide
            · exact okOfTail (parseDigitsU_chars ho) hin
        · rw [if_neg hminus] at h
          rcases ho : parseDigitsU (c0 :: rest) with _ | u
          · rw [ho] at h
            cases h
          · rcases parseDigitsU_chars ho c hmem with h1 | h2
            · simp [intOkChar, h1]
            · subst h2
              decide

theorem intOk_lower_ne_m {c : Char} (h : intOkChar c = true ∨ c = ':') :
    lowerChar c ≠ 'm' := by
  have hb : c.toNat < 65 ∨ 90 < c.toNat := by
    rcases h with h1 | h2
    · simp only [intOkChar, isWsChar, isDigitChar, Bool.or_eq_true, Bool.and_eq_true,
        decide_eq_true_eq] at h1
      omega
    · subst h2
      decide
  have hm : c.toNat ≠ 109 := by
    rcases h with h1 | h2
    · simp only [intOkChar, isWsChar, isDigitChar, Bool.or_eq_true, Bool.and_eq_true,
        decide_eq_true_eq] at h1
      omega
    · subst h2
      decide
  rw [lowerChar_eq_self hb]
  have h109 : ('m').toNat = 109 := rfl
  exact ne_of_toNat_ne (by omega)

/-! ## Normalizer facts -/

theorem mkCall_display (s : List Char) : (mkCall s).display_time = s := rfl

theorem minutes_only_def (call : Call) (now : Time) :
    minutes_only call now =
      (if pyStrip call.display_time = [] then (dashChars, none)
       else
         match parse_minutes (pyStrip call.display_time) with
         | some eta => ((if 99 < eta then ninetyNinePlus else pyStrInt eta), some eta)
         | none =>
           if ':' ∈ pyStrip call.display_time then
             match minutes_until_clock (pyStrip call.display_time) now with
             | some eta2 => ((if 99 < eta2 then ninetyNinePlus else pyStrInt eta2), some eta2)
             | none => (dashChars, none)
           else (dashChars, none)) := rfl

theorem parse_minutes_def (s : List Char) :
    parse_minutes s =
      (if toLowerL (pyStrip s) = [] then none
       else if containsSub (toLowerL (pyStrip s)) minChars then
         match splitWs (toLowerL (pyStrip s)) with
         | [] => none
         | tok :: _ => pyInt tok
       else none) := rfl

theorem minutes_only_parse_some {call : Call} (now : Time) {v : Int}
    (hne : pyStrip call.display_time ≠ [])
    (hp : parse_minutes (pyStrip call.display_time) = some v) :
    minutes_only call now = ((if 99 < v then ninetyNinePlus else pyStrInt v), some v) := by
  rw [minutes_only_def, if_neg hne, hp]

theorem minutes_only_clock_some {call : Call} (now : Time) {v : Int}
    (hne : pyStrip call.display_time ≠ [])
    (hp : parse_minutes (pyStrip call.display_time) = none)
    (hcol : ':' ∈ pyStrip call.display_time)
    (hck : minutes_until_clock (pyStrip call.display_time) now = some v) :
    minutes_only call now = ((if 99 < v then ninetyNinePlus else pyStrInt v), some v) := by
  rw [minutes_only_def, if_neg hne, hp, if_pos hcol, hck]

theorem minutes_until_clock_two {s p1 p2 : List Char} (now : Time)
    (hsp : splitOnC s = [p1, p2]) :
    minutes_until_clock s now =
      (match pyInt p1, pyInt p2 with
       | some h, some m => clock_minutes h m now
       | _, _ => none) := by
  rw [minutes_until_clock, hsp]

theorem parse_minutes_prefix_min {tok : List Char} (hne : tok ≠ [])
    (hws : ∀ c ∈ tok, isWsChar c = false)
    (hlow : ∀ c ∈ tok, c.toNat < 65 ∨ 90 < c.toNat) :
    parse_minutes (tok ++ [' ', 'm', 'i', 'n']) = pyInt tok := by
  obtain ⟨c, cs, htok⟩ := List.exists_cons_of_ne_nil hne
  have hcw : isWsChar c = false := hws c (by rw [htok]; exact List.mem_cons_self c cs)
  have hshape : tok ++ [' ', 'm', 'i', 'n'] = c :: ((cs ++ [' ', 'm', 'i']) ++ ['n']) := by
    rw [htok]
    simp
  have hstrip : pyStrip (tok ++ [' ', 'm', 'i', 'n']) = tok ++ [' ', 'm', 'i', 'n'] := by
    rw [hshape]
    exact pyStrip_clean _ hcw (by decide)
  have hlower : toLowerL (tok ++ [' ', 'm', 'i', 'n']) = tok ++ [' ', 'm', 'i', 'n'] := by
    apply toLowerL_eq_self
    intro x hx
    rcases List.mem_append.mp hx with h1 | h2
    · exact hlow x (htok ▸ h1)
    · have hx4 : x = ' ' ∨ x = 'm' ∨ x = 'i' ∨ x = 'n' := by simpa using h2
      rcases hx4 with rfl | rfl | rfl | rfl
      · left; decide
      · right; decide
      · right; decide
      · right; decide
  have hcontains : containsSub (tok ++ [' ', 'm', 'i', 'n']) minChars = true := by
    have hassoc : tok ++ [' ', 'm', 'i', 'n'] = (tok ++ [' ']) ++ minChars := by
      simp [minChars]
    rw [hassoc]
    exact containsSub_of_tail_eq minChars (tok ++ [' '])
  have hsplit : splitWs (tok ++ [' ', 'm', 'i', 'n']) =
      tok :: splitWsF (cs ++ [' ', 'm', 'i', 'n']).length
        ((cs ++ [' ', 'm', 'i', 'n']).dropWhile (fun x => ! isWsChar x)) := by
    have hshape2 : tok ++ [' ', 'm', 'i', 'n'] = c :: (cs ++ [' ', 'm', 'i', 'n']) := by
      rw [htok]
      simp
    rw [hshape2, splitWs_cons _ hcw]
    have htw : (cs ++ [' ', 'm', 'i', 'n']).takeWhile (fun x => ! isWsChar x) = cs := by
      have : cs ++ [' ', 'm', 'i', 'n'] = cs ++ ' ' :: ['m', 'i', 'n'] := rfl
      rw [this]
      apply takeWhile_all_append
      · intro x hx
        simp [hws x (by rw [htok]; exact List.mem_cons_of_mem c hx)]
      · decide
    rw [htw, htok]
  rw [parse_minutes_def, hstrip, hlower, if_neg (by rw [hshape]; simp),
    if_pos hcontains, hsplit]

theorem mucl_chars {s : List Char} {now : Time} {v : Int}
    (h : minutes_until_clock s now = some v) :
    ∀ c ∈ s, intOkChar c = true ∨ c = ':' := by
  intro c hc
  rcases hsp : splitOnC s with _ | ⟨p1, rest1⟩
  · rw [minutes_until_clock, hsp] at h
    cases h
  · rcases rest1 with _ | ⟨p2, rest2⟩
    · rw [minutes_until_clock, hsp] at h
      cases h
    · rcases rest2 with _ | ⟨p3, rest3⟩
      · rcases h1 : pyInt p1 with _ | hv
        · rw [minutes_until_clock_two now hsp, h1] at h
          simp at h
        · rcases h2 : pyInt p2 with _ | mv
          · rw [minutes_until_clock_two now hsp, h1, h2] at h
            simp at h
          · rcases mem_splitOnC hc with hcol | ⟨p, hp, hcp⟩
            · exact Or.inr hcol
            · rw [hsp] at hp
              rcases List.mem_cons.mp hp with rfl | hp2
              · exact Or.inl (pyInt_chars h1 c hcp)
              · rcases List.mem_cons.mp hp2 with rfl | hp3
                · exact Or.inl (pyInt_chars h2 c hcp)
                · cases hp3
      · rw [minutes_until_clock, hsp] at h
        cases h

theorem minutes_until_clock_none_of_m {s : List Char} (now : Time)
    (hm : ∃ c ∈ s, lowerChar c = 'm') :
    minutes_until_clock s now = none := by
  rcases hck : minutes_until_clock s now with _ | v
  · rfl
  · obtain ⟨c, hc, hcl⟩ := hm
    exact absurd hcl (intOk_lower_ne_m (mucl_chars hck c hc))

/-- C8: a display-time string whose lowered, stripped text contains the token
`"min"` but whose leading whitespace-separated token Python `int` rejects
normalizes to the placeholder `("--", None)`. -/
theorem minutes_only_min_unparseable (s : List Char) (now : Time)
    (h1 : containsSub (toLowerL (pyStrip s)) minChars = true)
    (h2 : pyInt ((splitWs (toLowerL (pyStrip s))).headD []) = none) :
    minutes_only (mkCall s) now = (dashChars, none) := by
  have htne : toLowerL (pyStrip s) ≠ [] :=
    containsSub_ne_nil (by rfl : minChars = 'm' :: ['i', 'n']) h1
  have hdne : pyStrip s ≠ [] := by
    intro hd
    apply htne
    rw [hd]
    rfl
  have hpm : parse_minutes (pyStrip s) = none := by
    rw [parse_minutes_def, pyStrip_idem, if_neg htne, if_pos h1]
    rcases hsw : splitWs (toLowerL (pyStrip s)) with _ | ⟨tok, rest⟩
    · rfl
    · rw [hsw] at h2
      simpa using h2
  have hmm : ∃ c ∈ pyStrip s, lowerChar c = 'm' := by
    have hmem : 'm' ∈ toLowerL (pyStrip s) := containsSub_mem rfl h1
    obtain ⟨c, hc, hcl⟩ := List.mem_map.mp hmem
    exact ⟨c, hc, hcl⟩
  rw [minutes_only_def, mkCall_display, if_neg hdne, hpm]
  by_cases hcol : ':' ∈ pyStrip s
  · rw [if_pos hcol, minutes_until_clock_none_of_m now hmm]
  · rw [if_neg hcol]

/-- C3: a well-formed `"N min"` display time normalizes to label `str(N)`
(or `"99+"` above 99) with the numeric minutes value `N` kept unclamped. -/
theorem minutes_only_nmin_correct (N : Nat) (now : Time) :
    minutes_only (mkCall (natToChars N ++ [' ', 'm', 'i', 'n'])) now =
      ((if 99 < N then ninetyNinePlus else natToChars N), some (N : Int)) := by
  obtain ⟨c, cs, htok⟩ := List.exists_cons_of_ne_nil (natToChars_ne_nil N)
  have hcw : isWsChar c = false :=
    natToChars_no_ws N c (by rw [htok]; exact List.mem_cons_self c cs)
  have hshape : natToChars N ++ [' ', 'm', 'i', 'n'] = c :: ((cs ++ [' ', 'm', 'i']) ++ ['n']) := by
    rw [htok]
    simp
  have hstrip : pyStrip (natToChars N ++ [' ', 'm', 'i', 'n']) =
      natToChars N ++ [' ', 'm', 'i', 'n'] := by
    rw [hshape]
    exact pyStrip_clean _ hcw (by decide)
  have hpm : parse_minutes (natToChars N ++ [' ', 'm', 'i', 'n']) = pyInt (natToChars N) :=
    parse_minutes_prefix_min (natToChars_ne_nil N) (natToChars_no_ws N)
      (fun c hc => Or.inl (by have := isDigitChar_toNat (natToChars_digits N c hc); omega))
  have hmain := @minutes_only_parse_some (mkCall (natToChars N ++ [' ', 'm', 'i', 'n']))
    now ((N : Int))
    (by rw [mkCall_display, hstrip, hshape]; simp)
    (by rw [mkCall_display, hstrip, hpm, pyInt_natToChars N])
  rw [hmain]
  have hlabel : (if (99 : Int) < (N : Int) then ninetyNinePlus else pyStrInt (N : Int)) =
      (if 99 < N then ninetyNinePlus else natToChars N) := by
    by_cases h99 : 99 < N
    · rw [if_pos (by exact_mod_cast h99), if_pos h99]
    · rw [if_neg (by exact_mod_cast h99), if_neg h99, pyStrInt,
        if_neg (by exact_mod_cast Nat.not_lt.mpr (Nat.zero_le N) : ¬(N : Int) < 0)]
      simp
  rw [hlabel]

theorem minutes_only_neg_min (k : Nat) (hk : 0 < k) (now : Time) :
    minutes_only (mkCall (('-' :: natToChars k) ++ [' ', 'm', 'i', 'n'])) now =
      ('-' :: natToChars k, some (-(k : Int))) := by
  have htokne : ('-' :: natToChars k) ≠ [] := by simp
  have htokws : ∀ c ∈ '-' :: natToChars k, isWsChar c = false := by
    intro c hc
    rcases List.mem_cons.mp hc with rfl | h2
    · decide
    · exact natToChars_no_ws k c h2
  have hshape : ('-' :: natToChars k) ++ [' ', 'm', 'i', 'n'] =
      '-' :: ((natToChars k ++ [' ', 'm', 'i']) ++ ['n']) := by
    simp
  have hstrip : pyStrip (('-' :: natToChars k) ++ [' ', 'm', 'i', 'n']) =
      ('-' :: natToChars k) ++ [' ', 'm', 'i', 'n'] := by
    rw [hshape]
    exact pyStrip_clean _ (by decide) (by decide)
  have hpm : parse_minutes (('-' :: natToChars k) ++ [' ', 'm', 'i', 'n']) =
      pyInt ('-' :: natToChars k) :=
    parse_minutes_prefix_min htokne htokws
      (by
        intro c hc
        rcases List.mem_cons.mp hc with rfl | h2
        · left; decide
        · have := isDigitChar_toNat (natToChars_digits k c h2)
          left
          omega)
  have hmain := @minutes_only_parse_some
    (mkCall (('-' :: natToChars k) ++ [' ', 'm', 'i', 'n']))
    now (-(k : Int))
    (by rw [mkCall_display, hstrip, hshape]; simp)
    (by rw [mkCall_display, hstrip, hpm, pyInt_neg_natToChars k])
  rw [hmain]
  have hneg : (-(k : Int)) < 0 := by
    omega
  rw [if_neg (by omega : ¬(99 : Int) < -(k : Int)), pyStrInt, if_pos hneg]
  simp

/-! ## Clock branch facts -/

theorem pad2_digits (n : Nat) : ∀ c ∈ pad2 n, isDigitChar c = true := by
  intro c hc
  rw [pad2] at hc
  by_cases h10 : n < 10
  · rw [if_pos h10] at hc
    rcases List.mem_cons.mp hc with rfl | h2
    · decide
    · exact natToChars_digits n c h2
  · rw [if_neg h10] at hc
    exact natToChars_digits n c hc

theorem pad2_no_colon (n : Nat) : ∀ c ∈ pad2 n, c ≠ ':' := by
  intro c hc
  have hb := isDigitChar_toNat (pad2_digits n c hc)
  have h58 : (':').toNat = 58 := rfl
  exact ne_of_toNat_ne (by omega)

theorem usecOfDay_lt {now : Time} (hv : now.Valid) : now.usecOfDay < 86400000000 := by
  obtain ⟨h1, h2, h3, h4⟩ := hv
  unfold Time.usecOfDay
  omega

theorem clock_minutes_eq (h m : Nat) (now : Time) (hh : h ≤ 23) (hm : m ≤ 59)
    (hv : now.Valid) :
    clock_minutes (h : Int) (m : Int) now =
      some ((nextOccurrenceMinutes h m now : Nat) : Int) := by
  rw [clock_minutes, if_pos ⟨Int.natCast_nonneg h, by exact_mod_cast hh,
    Int.natCast_nonneg m, by exact_mod_cast hm⟩]
  simp only [Int.toNat_natCast]
  rw [max_eq_right (Int.natCast_nonneg _)]
  have hlt := usecOfDay_lt hv
  rw [Option.some.injEq, Nat.cast_inj, nextOccurrenceMinutes]
  split_ifs with hcase
  · omega
  · omega

/-- C4: a well-formed `HH:MM` display time normalizes to the non-negative
number of whole minutes until the next occurrence of that wall-clock time,
wrapping by one day when the target already passed. -/
theorem minutes_only_hhmm_correct (h m : Nat) (now : Time)
    (hh : h ≤ 23) (hm : m ≤ 59) (hv : now.Valid) :
    (minutes_only (mkCall (pad2 h ++ ':' :: pad2 m)) now).2 =
      some ((nextOccurrenceMinutes h m now : Nat) : Int) ∧
    (0 : Int) ≤ ((nextOccurrenceMinutes h m now : Nat) : Int) := by
  have hsp : splitOnC (pad2 h ++ ':' :: pad2 m) = [pad2 h, pad2 m] := by
    rw [splitOnC_append _ (pad2_no_colon h), splitOnC_no_colon (pad2_no_colon m)]
  have hnws : ∀ c ∈ pad2 h ++ ':' :: pad2 m, isWsChar c = false := by
    intro c hc
    rcases List.mem_append.mp hc with h1 | h2
    · exact isWsChar_of_isDigitChar (pad2_digits h c h1)
    · rcases List.mem_cons.mp h2 with rfl | h3
      · decide
      · exact isWsChar_of_isDigitChar (pad2_digits m c h3)
  have hstrip : pyStrip (pad2 h ++ ':' :: pad2 m) = pad2 h ++ ':' :: pad2 m :=
    pyStrip_of_no_ws hnws
  have hlow : toLowerL (pad2 h ++ ':' :: pad2 m) = pad2 h ++ ':' :: pad2 m := by
    apply toLowerL_eq_self
    intro c hc
    rcases List.mem_append.mp hc with h1 | h2
    · have := isDigitChar_toNat (pad2_digits h c h1)
      left
      omega
    · rcases List.mem_cons.mp h2 with rfl | h3
      · left; decide
      · have := isDigitChar_toNat (pad2_digits m c h3)
        left
        omega
  have hne : pad2 h ++ ':' :: pad2 m ≠ [] := by simp
  have hnom : 'm' ∉ pad2 h ++ ':' :: pad2 m := by
    intro hmem
    have h109 : ('m').toNat = 109 := rfl
    rcases List.mem_append.mp hmem with h1 | h2
    · have := isDigitChar_toNat (pad2_digits h 'm' h1)
      omega
    · rcases List.mem_cons.mp h2 with heq | h3
      · cases heq
      · have := isDigitChar_toNat (pad2_digits m 'm' h3)
        omega
  have hpm : parse_minutes (pad2 h ++ ':' :: pad2 m) = none := by
    rw [parse_minutes_def, hstrip, hlow, if_neg hne,
      if_neg (by simp [containsSub_false_of_no_mem hnom, minChars])]
  have hcol : ':' ∈ pad2 h ++ ':' :: pad2 m :=
    List.mem_append.mpr (Or.inr (List.mem_cons_self _ _))
  have hck0 : minutes_until_clock (pad2 h ++ ':' :: pad2 m) now =
      clock_minutes (h : Int) (m : Int) now := by
    rw [minutes_until_clock_two now hsp, pyInt_pad2 h, pyInt_pad2 m]
  have hck : minutes_until_clock (pad2 h ++ ':' :: pad2 m) now =
      some ((nextOccurrenceMinutes h m now : Nat) : Int) := by
    rw [hck0, clock_minutes_eq h m now hh hm hv]
  refine ⟨?_, Int.natCast_nonneg _⟩
  rw [minutes_only_clock_some now
    (by rw [mkCall_display, hstrip]; exact hne)
    (by rw [mkCall_display, hstrip]; exact hpm)
    (by rw [mkCall_display, hstrip]; exact hcol)
    (by rw [mkCall_display, hstrip]; exact hck)]

/-- Witness for C4 at `07:30` seen from `21:35:10.000005`. -/
theorem minutes_only_hhmm_correct_wit :
    (minutes_only (mkCall (pad2 7 ++ ':' :: pad2 30)) ⟨21, 35, 10, 5⟩).2 =
      some ((nextOccurrenceMinutes 7 30 ⟨21, 35, 10, 5⟩ : Nat) : Int) ∧
    (0 : Int) ≤ ((nextOccurrenceMinutes 7 30 ⟨21, 35, 10, 5⟩ : Nat) : Int) :=
  minutes_only_hhmm_correct 7 30 ⟨21, 35, 10, 5⟩ (by decide) (by decide)
    ⟨by decide, by decide, by decide, by decide⟩

/-! ## Selector facts -/

theorem callAt3_0 (a b c : Call) : callAt [a, b, c] 0 = a := rfl

theorem callAt3_1 (a b c : Call) : callAt [a, b, c] 1 = b := rfl

theorem callAt3_2 (a b c : Call) : callAt [a, b, c] 2 = c := rfl

theorem ccAux_no_qual (walk : Int) (now : Time) :
    ∀ (l : List Call) (i : Nat) (bi : Option Nat) (be : Option Int),
      (∀ c ∈ l, ∀ v, (minutes_only c now).2 = some v → v < walk) →
      ccAux walk now i bi be l = bi := by
  intro l
  induction l with
  | nil => intro i bi be _; rfl
  | cons c rest ih =>
    intro i bi be h
    rcases hm : (minutes_only c now).2 with _ | v
    · rw [ccAux, hm]
      exact ih _ _ _ fun c' hc' => h c' (List.mem_cons_of_mem _ hc')
    · have hv : v < walk := h c (List.mem_cons_self c rest) v hm
      have hbe : betterEta walk v be = false := by
        unfold betterEta
        rw [decide_eq_false (not_le.mpr hv)]
        rfl
      simp only [ccAux, hm, hbe, Bool.false_eq_true, if_false]
      exact ih _ _ _ fun c' hc' => h c' (List.mem_cons_of_mem _ hc')

theorem choose_catchable_no_qual (walk : Int) (now : Time) (l : List Call)
    (h : ∀ c ∈ l, ∀ v, (minutes_only c now).2 = some v → v < walk) :
    choose_catchable walk now l = 0 := by
  rw [choose_catchable, ccAux_no_qual walk now l 0 none none h]
  rfl

theorem cc3_qual (walk : Int) (now : Time) (c0 c1 c2 : Call) :
    ∀ j v, j < 3 →
      (minutes_only (callAt [c0, c1, c2] j) now).2 = some v → walk ≤ v →
      choose_catchable walk now [c0, c1, c2] < 3 ∧
      ∃ w, (minutes_only (callAt [c0, c1, c2] (choose_catchable walk now [c0, c1, c2])) now).2 =
          some w ∧
        walk ≤ w ∧ w ≤ v ∧ (w = v → choose_catchable walk now [c0, c1, c2] ≤ j) := by
  intro j v hj hm hv
  have hj3 : j = 0 ∨ j = 1 ∨ j = 2 := by omega
  rcases h0 : (minutes_only c0 now).2 with _ | v0 <;>
    rcases h1 : (minutes_only c1 now).2 with _ | v1 <;>
      rcases h2 : (minutes_only c2 now).2 with _ | v2 <;>
        rcases hj3 with rfl | rfl | rfl <;>
          simp only [callAt3_0, callAt3_1, callAt3_2] at hm <;>
          simp [h0, h1, h2] at hm <;>
          simp only [choose_catchable, ccAux, h0, h1, h2, betterEta, Bool.and_true,
            Bool.and_eq_true, decide_eq_true_eq] <;>
          split_ifs <;>
          simp [Option.getD_some, Option.getD_none, callAt3_0, callAt3_1, callAt3_2,
            h0, h1, h2, exists_eq_left'] <;>
          omega

theorem qualB_false_lt {walk : Int} {e : Option Int} {v : Int}
    (hq : qualB walk e = false) (he : e = some v) : v < walk := by
  rw [he] at hq
  simp only [qualB, decide_eq_false_iff_not] at hq
  omega

theorem qualB_true_elim {walk : Int} {e : Option Int} (hq : qualB walk e = true) :
    ∃ v, e = some v ∧ walk ≤ v := by
  rcases e with _ | v
  · simp [qualB] at hq
  · simp only [qualB, decide_eq_true_eq] at hq
    exact ⟨v, rfl, hq⟩

/-- C1: over any three departure calls, the selector falls back to index `0`
exactly when no call has a defined ETA at least the walk time; otherwise the
selected index is in range, qualifies, carries the smallest qualifying ETA,
and ties go to the earliest index. -/
theorem choose_catchable_correct (walk : Int) (now : Time) (c0 c1 c2 : Call) :
    ((∀ j, j < 3 → qualB walk (minutes_only (callAt [c0, c1, c2] j) now).2 = false) →
      choose_catchable walk now [c0, c1, c2] = 0) ∧
    (∀ j v, j < 3 →
      (minutes_only (callAt [c0, c1, c2] j) now).2 = some v → walk ≤ v →
      choose_catchable walk now [c0, c1, c2] < 3 ∧
      ∃ w, (minutes_only (callAt [c0, c1, c2] (choose_catchable walk now [c0, c1, c2])) now).2 =
          some w ∧
        walk ≤ w ∧ w ≤ v ∧ (w = v → choose_catchable walk now [c0, c1, c2] ≤ j)) := by
  constructor
  · intro h
    apply choose_catchable_no_qual
    intro c hc v hm
    have hmem : c = c0 ∨ c = c1 ∨ c = c2 := by simpa using hc
    rcases hmem with rfl | rfl | rfl
    · exact qualB_false_lt (callAt3_0 c c1 c2 ▸ h 0 (by omega)) hm
    · exact qualB_false_lt (callAt3_1 c0 c c2 ▸ h 1 (by omega)) hm
    · exact qualB_false_lt (callAt3_2 c0 c1 c ▸ h 2 (by omega)) hm
  · exact cc3_qual walk now c0 c1 c2

/-- Witness for C1: all-empty calls fall back to `0`; the spec's scenario
`["5 min", "21 min", "2 min"]` with a five-minute walk selects a qualifying
minimal index. -/
theorem choose_catchable_correct_wit :
    choose_catchable 5 sampleNow [mkCall [], mkCall [], mkCall []] = 0 ∧
    (choose_catchable 5 sampleNow [call5, call21, call2] < 3 ∧
     ∃ w, (minutes_only (callAt [call5, call21, call2]
           (choose_catchable 5 sampleNow [call5, call21, call2])) sampleNow).2 = some w ∧
       5 ≤ w ∧ w ≤ 5 ∧ (w = 5 → choose_catchable 5 sampleNow [call5, call21, call2] ≤ 0)) := by
  constructor
  · exact (choose_catchable_correct 5 sampleNow (mkCall []) (mkCall []) (mkCall [])).1
      (by decide)
  · exact (choose_catchable_correct 5 sampleNow call5 call21 call2).2 0 5
      (by decide) (by decide) (by decide)

/-- C10: a negative `"N min"` time keeps its negative value (label and
number), and with a nonnegative walk time the selector only ever lands on a
negative-ETA call through the index-0 fallback, with nothing qualifying. -/
theorem negative_minutes_not_catchable (k : Nat) (hk : 0 < k) (now : Time)
    (walk : Int) (hw : 0 ≤ walk) (c0 c1 c2 : Call) :
    minutes_only (mkCall (('-' :: natToChars k) ++ [' ', 'm', 'i', 'n'])) now =
      ('-' :: natToChars k, some (-(k : Int))) ∧
    (∀ v, (minutes_only (callAt [c0, c1, c2]
          (choose_catchable walk now [c0, c1, c2])) now).2 = some v → v < 0 →
      choose_catchable walk now [c0, c1, c2] = 0 ∧
      ∀ j, j < 3 → qualB walk (minutes_only (callAt [c0, c1, c2] j) now).2 = false) := by
  refine ⟨minutes_only_neg_min k hk now, ?_⟩
  intro v hm hv
  have hnoqual : ∀ j, j < 3 →
      qualB walk (minutes_only (callAt [c0, c1, c2] j) now).2 = false := by
    intro j hj
    cases hqb : qualB walk (minutes_only (callAt [c0, c1, c2] j) now).2 with
    | false => rfl
    | true =>
      obtain ⟨v', hmj, hle⟩ := qualB_true_elim hqb
      obtain ⟨_, w, hw1, hw2, _, _⟩ := cc3_qual walk now c0 c1 c2 j v' hj hmj hle
      rw [hm] at hw1
      injection hw1 with hw1
      omega
  refine ⟨?_, hnoqual⟩
  apply choose_catchable_no_qual
  intro c hc v' hm'
  have hmem : c = c0 ∨ c = c1 ∨ c = c2 := by simpa using hc
  rcases hmem with rfl | rfl | rfl
  · exact qualB_false_lt (callAt3_0 c c1 c2 ▸ hnoqual 0 (by omega)) hm'
  · exact qualB_false_lt (callAt3_1 c0 c c2 ▸ hnoqual 1 (by omega)) hm'
  · exact qualB_false_lt (callAt3_2 c0 c1 c ▸ hnoqual 2 (by omega)) hm'

/-- Witness for C10 at `"-3 min"` with a five-minute walk. -/
theorem negative_minutes_not_catchable_wit :
    minutes_only (mkCall (('-' :: natToChars 3) ++ [' ', 'm', 'i', 'n'])) sampleNow =
      ('-' :: natToChars 3, some (-(3 : Int))) ∧
    (choose_catchable 5 sampleNow [callNeg3, callNeg3, callNeg3] = 0 ∧
     ∀ j, j < 3 →
       qualB 5 (minutes_only (callAt [callNeg3, callNeg3, callNeg3] j) sampleNow).2 = false) := by
  have h := negative_minutes_not_catchable 3 (by decide) sampleNow 5 (by decide)
    callNeg3 callNeg3 callNeg3
  exact ⟨h.1, h.2 (-3) (by decide) (by decide)⟩

/-! ## Scheduler facts -/

/-- C2: with a nonempty call list and an in-range emphasized index, the
scheduler returns the fast interval exactly when the emphasized call's ETA is
defined and within the fast window, and the day interval in every other
case. -/
theorem choose_sleep_seconds_correct (DAY FAST WIN : Int) (now : Time)
    (calls : List Call) (idx : Nat) (h1 : calls ≠ []) (h2 : idx < calls.length) :
    ((∃ e, (minutes_only (callAt calls idx) now).2 = some e ∧ e ≤ WIN) →
      choose_sleep_seconds DAY FAST WIN now calls idx = FAST) ∧
    ((¬ ∃ e, (minutes_only (callAt calls idx) now).2 = some e ∧ e ≤ WIN) →
      choose_sleep_seconds DAY FAST WIN now calls idx = DAY) ∧
    (FAST ≠ DAY →
      (choose_sleep_seconds DAY FAST WIN now calls idx = FAST ↔
        ∃ e, (minutes_only (callAt calls idx) now).2 = some e ∧ e ≤ WIN)) := by
  have hmin : min idx (calls.length - 1) = idx := by omega
  rcases hm : (minutes_only (callAt calls idx) now).2 with _ | e
  · have hr : choose_sleep_seconds DAY FAST WIN now calls idx = DAY := by
      rw [choose_sleep_seconds, if_neg h1, hmin, hm]
    rw [hr]
    refine ⟨?_, fun _ => rfl, ?_⟩
    · rintro ⟨e, he, _⟩
      cases he
    · intro hne
      constructor
      · intro hda
        exact absurd hda.symm hne
      · rintro ⟨e, he, _⟩
        cases he
  · have hr : choose_sleep_seconds DAY FAST WIN now calls idx =
        if e ≤ WIN then FAST else DAY := by
      rw [choose_sleep_seconds, if_neg h1, hmin, hm]
    rw [hr]
    refine ⟨?_, ?_, ?_⟩
    · rintro ⟨e', he', hle⟩
      injection he' with he''
      rw [if_pos (by omega : e ≤ WIN)]
    · intro hno
      rw [if_neg fun hle => hno ⟨e, rfl, hle⟩]
    · intro hne
      constructor
      · intro heq
        by_cases hew : e ≤ WIN
        · exact ⟨e, rfl, hew⟩
        · rw [if_neg hew] at heq
          exact absurd heq.symm hne
      · rintro ⟨e', he', hle⟩
        injection he' with he''
        rw [if_pos (by omega : e ≤ WIN)]

/-- Witness for C2: `"5 min"` inside a ten-minute window refreshes fast; an
empty call refreshes at the day interval. -/
theorem choose_sleep_seconds_correct_wit :
    choose_sleep_seconds 180 60 10 sampleNow [call5] 0 = 60 ∧
    choose_sleep_seconds 180 60 10 sampleNow [mkCall []] 0 = 180 := by
  constructor
  · exact (choose_sleep_seconds_correct 180 60 10 sampleNow [call5] 0
      (by simp) (by decide)).1 ⟨5, by decide, by decide⟩
  · exact (choose_sleep_seconds_correct 180 60 10 sampleNow [mkCall []] 0
      (by simp) (by decide)).2.1
      (by
        rintro ⟨e, he, _⟩
        rw [show (minutes_only (callAt [mkCall []] 0) sampleNow).2 = none from by decide] at he
        cases he)

/-! ## Quiet-hours gate -/

/-- C5: the quiet-hours gate reports night exactly under the spec's two-case
rule, and in particular with the 22-to-6 window hour 23 is night while hours
6 and 21 are day. -/
theorem in_quiet_hours_correct (qs qe : Int) (now : Time) :
    (in_quiet_hours qs qe now = true ↔
      ((qs < qe ∧ qs ≤ (now.hour : Int) ∧ (now.hour : Int) < qe) ∨
       (qe ≤ qs ∧ (qs ≤ (now.hour : Int) ∨ (now.hour : Int) < qe)))) ∧
    in_quiet_hours 22 6 ⟨23, 0, 0, 0⟩ = true ∧
    in_quiet_hours 22 6 ⟨6, 0, 0, 0⟩ = false ∧
    in_quiet_hours 22 6 ⟨21, 0, 0, 0⟩ = false := by
  refine ⟨?_, by decide, by decide, by decide⟩
  unfold in_quiet_hours
  by_cases hlt : qs < qe
  · rw [if_pos hlt]
    simp only [decide_eq_true_eq]
    omega
  · rw [if_neg hlt]
    simp only [decide_eq_true_eq]
    omega

/-! ## Seven-segment alphabet -/

/-- C6: for every character of `"0123456789-"`, the source's segment table
(and hence the set of rectangles the digit rasterizer fills) matches the
canonical calculator-display alphabet. -/
theorem segments_canonical (x y w h t : Int) :
    ∀ ch ∈ ['0', '1', '2', '3', '4', '5', '6', '7', '8', '9', '-'],
      (SEGMENTS ch).Perm (canonicalSegs ch) ∧
      (draw_7seg_digit x y w h ch t).Perm
        ((canonicalSegs ch).map (_seg_rects x y w h t)) := by
  intro ch hch
  have hmem : ch = '0' ∨ ch = '1' ∨ ch = '2' ∨ ch = '3' ∨ ch = '4' ∨ ch = '5' ∨
      ch = '6' ∨ ch = '7' ∨ ch = '8' ∨ ch = '9' ∨ ch = '-' := by simpa using hch
  rcases hmem with rfl | rfl | rfl | rfl | rfl | rfl | rfl | rfl | rfl | rfl | rfl <;>
    exact ⟨by decide, by rw [draw_7seg_digit]; exact List.Perm.map _ (by decide)⟩

/-- Witness for C6 at the digit `8`. -/
theorem segments_canonical_wit :
    (SEGMENTS '8').Perm (canonicalSegs '8') ∧
    (draw_7seg_digit 0 0 10 20 '8' 3).Perm
      ((canonicalSegs '8').map (_seg_rects 0 0 10 20 3)) :=
  segments_canonical 0 0 10 20 3 '8' (by decide)

/-! ## Text sanitization -/

/-- C7: the text actually laid out by `draw_7seg_text` is the spec's
strip-filter-truncate-fallback result: never empty, at most three characters,
all from the supported alphabet. -/
theorem draw_7seg_text_sanitize_correct (text : List Char) :
    draw_7seg_text_sanitized text = sanitizeSpec text ∧
    draw_7seg_text_sanitized text ≠ [] ∧
    (draw_7seg_text_sanitized text).length ≤ 3 ∧
    ∀ c ∈ draw_7seg_text_sanitized text, c ∈ allowed7 := by
  by_cases hstrip : pyStrip text = []
  · rw [show draw_7seg_text_sanitized text = dashChars by
      simp [draw_7seg_text_sanitized, hstrip, dashChars, allowed7]]
    rw [show sanitizeSpec text = dashChars by simp [sanitizeSpec, hstrip]]
    refine ⟨rfl, by simp [dashChars], by simp [dashChars], ?_⟩
    intro c hc
    rcases List.mem_cons.mp hc with rfl | hc2
    · simp [allowed7]
    · rcases List.mem_cons.mp hc2 with rfl | hc3
      · simp [allowed7]
      · cases hc3
  · by_cases hkept : (pyStrip text).filter (fun c => c ∈ allowed7) = []
    · rw [show draw_7seg_text_sanitized text = dashChars by
        simp [draw_7seg_text_sanitized, hstrip, hkept]]
      rw [show sanitizeSpec text = dashChars by simp [sanitizeSpec, hstrip, hkept]]
      refine ⟨rfl, by simp [dashChars], by simp [dashChars], ?_⟩
      intro c hc
      rcases List.mem_cons.mp hc with rfl | hc2
      · simp [allowed7]
      · rcases List.mem_cons.mp hc2 with rfl | hc3
        · simp [allowed7]
        · cases hc3
    · have htne : ((pyStrip text).filter (fun c => c ∈ allowed7)).take 3 ≠ [] := by
        simp only [ne_eq, List.take_eq_nil_iff]
        push_neg
        exact ⟨by omega, hkept⟩
      have hsan : draw_7seg_text_sanitized text =
          ((pyStrip text).filter (fun c => c ∈ allowed7)).take 3 := by
        simp only [draw_7seg_text_sanitized]
        rw [if_neg hstrip, if_neg htne]
      have hspec : sanitizeSpec text =
          ((pyStrip text).filter (fun c => c ∈ allowed7)).take 3 := by
        simp only [sanitizeSpec]
        rw [if_neg hstrip, if_neg hkept]
      refine ⟨hsan.trans hspec.symm, hsan ▸ htne, ?_, ?_⟩
      · rw [hsan]
        exact List.length_take_le 3 _
      · intro c hc
        rw [hsan] at hc
        have hcf : c ∈ (pyStrip text).filter (fun c => c ∈ allowed7) :=
          List.mem_of_mem_take hc
        have := List.mem_filter.mp hcf
        simpa using this.2

/-! ## Segment thickness -/

/-- C9 counterexample: at the box `(w, h) = (4, 4)` with requested thickness
`5`, the thickness actually used is `2`, which does not lie in the interval
`[2, min(w, h) / 4] = [2, 1]`. -/
theorem seg_thickness_claim_false :
    ¬ (2 ≤ seg_thickness 4 4 5 ∧ seg_thickness 4 4 5 ≤ min (4 : Int) 4 / 4) := by
  decide

/-- C9 amended: the thickness used lies in `[2, min(w, h) / 4]` whenever that
interval is nonempty (`min(w, h) ≥ 8`); for smaller boxes the clamp yields
exactly `2`. -/
theorem seg_thickness_clamped (w h t : Int) :
    (8 ≤ min w h → 2 ≤ seg_thickness w h t ∧ seg_thickness w h t ≤ min w h / 4) ∧
    (min w h / 4 < 2 → seg_thickness w h t = 2) := by
  unfold seg_thickness
  constructor
  · intro h8
    refine ⟨le_max_left 2 _, ?_⟩
    have hq : 2 ≤ min w h / 4 := by omega
    exact max_le hq (min_le_right t _)
  · intro hlt
    have hmle : min t (min w h / 4) ≤ min w h / 4 := min_le_right _ _
    rw [max_eq_left (by omega : min t (min w h / 4) ≤ 2)]

/-- Witness for C9's amended statement: a large box stays within the
interval, a tiny box clamps to exactly `2`. -/
theorem seg_thickness_clamped_wit :
    (2 ≤ seg_thickness 40 40 100 ∧ seg_thickness 40 40 100 ≤ min (40 : Int) 40 / 4) ∧
    seg_thickness 4 4 5 = 2 :=
  ⟨(seg_thickness_clamped 40 40 100).1 (by decide),
   (seg_thickness_clamped 4 4 5).2 (by decide)⟩

/-- Witness for C8 at `"Due min"`. -/
theorem minutes_only_min_unparseable_wit :
    minutes_only (mkCall ['D', 'u', 'e', ' ', 'm', 'i', 'n']) sampleNow = (dashChars, none) :=
  minutes_only_min_unparseable ['D', 'u', 'e', ' ', 'm', 'i', 'n'] sampleNow
    (by decide) (by decide)

/-- Witness for C3 at `"5 min"`. -/
theorem minutes_only_nmin_correct_wit :
    minutes_only (mkCall (natToChars 5 ++ [' ', 'm', 'i', 'n'])) sampleNow =
      ((if 99 < 5 then ninetyNinePlus else natToChars 5), some (5 : Int)) :=
  minutes_only_nmin_correct 5 sampleNow

/-- Witness for C5 at hour 23 of the 22-to-6 window. -/
theorem in_quiet_hours_correct_wit :
    in_quiet_hours 22 6 ⟨23, 0, 0, 0⟩ = true :=
  (in_quiet_hours_correct 22 6 ⟨23, 0, 0, 0⟩).2.1

/-- Witness for C7 on a four-digit input. -/
theorem draw_7seg_text_sanitize_correct_wit :
    draw_7seg_text_sanitized ['1', '2', '3', '4'] = sanitizeSpec ['1', '2', '3', '4'] ∧
    draw_7seg_text_sanitized ['1', '2', '3', '4'] ≠ [] ∧
    (draw_7seg_text_sanitized ['1', '2', '3', '4']).length ≤ 3 ∧
    ∀ c ∈ draw_7seg_text_sanitized ['1', '2', '3', '4'], c ∈ allowed7 :=
  draw_7seg_text_sanitize_correct ['1', '2', '3', '4']

end Oxon
